import Mathlib

/-!
Shallow embedding of `src/dynamic_pond.h` (class `hipe::DynamicThreadPond`).

The C++ class owns a shared FIFO task queue, an atomic outstanding-task
counter (`total_tasks`), an atomic shrink counter (`shrink_numb`), a FIFO of
recycled worker-slot indices (`deleted_threads`), a vector of thread slots
(`pond`), the desired thread count (`thread_numb`), a `stop` flag, a
`waiting` flag and a loaded-task counter (`task_loaded`).

Machine `int` / `atomic_int` fields are embedded as `Int` (the behaviours at
issue never approach overflow and every arithmetic step is spelled out), the
task queue as a `List` of abstract tasks, and each thread slot as a status
(`running` in the loop, `busy` executing a task, `exited` after the thread
function returned, `crashed` after an uncaught exception propagated out of
the thread function, `joined` after `std::thread::join`).

A task is abstracted by the only two bits the pool's control flow can
observe: whether invoking it raises, and whether it was wrapped in a
`std::packaged_task` (submitForReturn), in which case the raise is captured
into the future and the invocation returns normally.

Blocking calls are embedded as completed sequential steps: an operation that
would block (a cv wait whose predicate is false, a join of a thread that has
not exited) contributes no step / is `none`; `std::thread::join` on a
non-joinable (already joined) thread throws, embedded as `Except.error`.
-/

namespace hipe

/-- A type-erased task, abstracted to the two bits the pool can observe:
whether executing it raises, and whether a result channel (packaged_task /
future) is attached. -/
structure HipeTask where
  raises : Bool
  hasChannel : Bool
deriving DecidableEq, Repr

/-- Status of one worker slot (one `std::thread` in the `pond` vector). -/
inductive WStatus where
  | running
  | busy (t : HipeTask)
  | exited
  | crashed
  | joined
deriving DecidableEq, Repr

/-- The member state of `hipe::DynamicThreadPond`, field for field. -/
structure DynamicThreadPond where
  stop : Bool
  thread_numb : Int
  waiting : Bool
  total_tasks : Int
  shared_tq : List HipeTask
  pond : List WStatus
  shrink_numb : Int
  deleted_threads : List Nat
  task_loaded : Int
deriving DecidableEq, Repr

abbrev Pond := DynamicThreadPond

/-- The constructor `DynamicThreadPond(tnumb)`: asserts `tnumb >= 0` (here:
`Nat` input), spawns `tnumb` workers and sets `thread_numb = tnumb`. -/
def mkPond (tnumb : Nat) : Pond :=
  { stop := false
    thread_numb := tnumb
    waiting := false
    total_tasks := 0
    shared_tq := []
    pond := List.replicate tnumb .running
    shrink_numb := 0
    deleted_threads := []
    task_loaded := 0 }

/-- `getThreadNumb()`: returns `thread_numb`. -/
def getThreadNumb (s : Pond) : Int := s.thread_numb

/-- `getTasksRemain()`: returns `total_tasks`. -/
def getTasksRemain (s : Pond) : Int := s.total_tasks

/-- Which waiters a call wakes on `awake_cv`: `notify_one` or `notify_all`. -/
inductive Wake where
  | one
  | all
deriving DecidableEq, Repr

/-- `submit(foo)`: under the lock, push the task and `++total_tasks`; then
`awake_cv.notify_one()`. A plain runnable has no result channel. -/
def submit (raises : Bool) (s : Pond) : Pond × Wake :=
  ({ s with shared_tq := s.shared_tq ++ [⟨raises, false⟩]
            total_tasks := s.total_tasks + 1 }, Wake.one)

/-- `submitForReturn(foo)`: wraps the runnable in a `std::packaged_task`
(so a result channel is attached), then the same enqueue / `++total_tasks`
under the lock and `notify_one`. -/
def submitForReturn (raises : Bool) (s : Pond) : Pond × Wake :=
  ({ s with shared_tq := s.shared_tq ++ [⟨raises, true⟩]
            total_tasks := s.total_tasks + 1 }, Wake.one)

/-- `submitInBatch(cont, size)`: one critical section doing
`total_tasks += size` followed by pushing `cont[0] .. cont[size-1]` in
order; then `awake_cv.notify_all()`. -/
def submitInBatch (cont : List HipeTask) (size : Nat) (s : Pond) : Pond × Wake :=
  ({ s with total_tasks := s.total_tasks + (size : Int)
            shared_tq := s.shared_tq ++ cont.take size }, Wake.all)

/-- `delThreads(tnumb)`: `assert(tnumb <= thread_numb && tnumb >= 0)` (a
violated assertion aborts: `none`), then `shrink_numb += tnumb`,
`thread_numb -= tnumb`, `awake_cv.notify_all()`; returns at once, joining
nothing. -/
def delThreads (tnumb : Int) (s : Pond) : Option (Pond × Wake) :=
  if tnumb ≤ s.thread_numb ∧ 0 ≤ tnumb then
    some ({ s with shrink_numb := s.shrink_numb + tnumb
                   thread_numb := s.thread_numb - tnumb }, Wake.all)
  else none

/-- One iteration of the `while (tnumb--)` loop of `addThreads`: if
`deleted_threads` is non-empty, pop the front index, join the old thread at
that index (the join completes only for a thread whose function has
returned; a recycled index always refers to such a thread) and bind a new
worker thread to the same index; otherwise append a brand-new slot. Either
way `thread_numb++`. -/
def addOne (s : Pond) : Option Pond :=
  match s.deleted_threads with
  | idx :: rest =>
    match s.pond[idx]? with
    | some .exited =>
      some { s with deleted_threads := rest
                    pond := s.pond.set idx .running
                    thread_numb := s.thread_numb + 1 }
    | _ => none
  | [] =>
    some { s with pond := s.pond ++ [.running]
                  thread_numb := s.thread_numb + 1 }

/-- The `while (tnumb--)` loop of `addThreads`, run `k` times. -/
def addLoop : Nat → Pond → Option Pond
  | 0, s => some s
  | Nat.succ k, s => (addOne s).bind (addLoop k)

/-- `addThreads(tnumb)`: `assert(tnumb >= 0)` then the loop. -/
def addThreads (tnumb : Int) (s : Pond) : Option Pond :=
  if 0 ≤ tnumb then addLoop tnumb.toNat s else none

/-- `adjustThreads(target_tnumb)`: `assert(target_tnumb >= 0)`; grow by the
difference when above `thread_numb`, shrink by the difference when below,
otherwise do nothing. -/
def adjustThreads (target : Int) (s : Pond) : Option Pond :=
  if 0 ≤ target then
    if s.thread_numb < target then addThreads (target - s.thread_numb) s
    else if target < s.thread_numb then (delThreads (s.thread_numb - target) s).map Prod.fst
    else some s
  else none

/-- The predicate of the `task_done_cv.wait` in `waitForTasks`:
`[this] { return !total_tasks; }`. -/
def waitPred (s : Pond) : Bool := s.total_tasks = 0

/-- Outcome of a call to `waitForTasks()`. -/
inductive WaitCall where
  | returned (s : Pond)
  | blocked (s : Pond)
deriving DecidableEq, Repr

/-- `waitForTasks()`: set `waiting = true`, then `task_done_cv.wait(locker,
pred)`; a cv wait first evaluates its predicate under the lock and returns
without blocking when it already holds, upon which `waiting = false`. When
the predicate is false the caller parks with `waiting` still set. -/
def waitForTasks (s : Pond) : WaitCall :=
  let s1 : Pond := { s with waiting := true }
  if waitPred s1 then .returned { s1 with waiting := false }
  else .blocked s1

/-- A parked `waitForTasks` caller being signalled through `task_done_cv`:
the predicate is re-evaluated under the lock; only when it holds does the
wait return, and then `waiting = false` runs. -/
def waitResume (s : Pond) : Option Pond :=
  if waitPred s then some { s with waiting := false } else none

/-- `std::thread::join` on one slot: blocks until the thread function has
returned, then marks the handle joined; joining a non-joinable (already
joined) thread throws `std::system_error`. -/
def joinThread : WStatus → Except String WStatus
  | .joined => .error "join on a non-joinable thread"
  | _ => .ok .joined

/-- The `for (auto &thread : pond) thread.join();` loop of `close`. -/
def joinAll : List WStatus → Except String (List WStatus)
  | [] => .ok []
  | st :: rest =>
    match joinThread st with
    | .error e => .error e
    | .ok j =>
      match joinAll rest with
      | .error e => .error e
      | .ok js => .ok (j :: js)

/-- `close()`: under the lock set `stop = true` and `notify_all`; then join
every thread in `pond` in order. `thread_numb`, the queue and the counters
are not touched. -/
def closeFn (s : Pond) : Except String Pond :=
  let s1 : Pond := { s with stop := true }
  (joinAll s1.pond).map (fun p => { s1 with pond := p })

/-- `util::invoke(task)` returns normally exactly when the task does not
raise, or raises inside a `packaged_task` (submitForReturn), which captures
the failure into the future and returns normally to the worker. -/
def invokeCompletes (t : HipeTask) : Bool := !t.raises || t.hasChannel

/-- The wake condition of the worker's `awake_cv.wait`:
`!shared_tq.empty() || stop || shrink_numb > 0`. -/
def awakePred (s : Pond) : Bool :=
  !s.shared_tq.isEmpty || s.stop || decide (s.shrink_numb > 0)

/-- One schedulable step of the system: a public call, or one slice of one
worker's loop. -/
inductive Event where
  | submit (raises : Bool)
  | submitForReturn (raises : Bool)
  | submitInBatch (cont : List HipeTask)
  | delThreads (n : Int)
  | addThreads (n : Int)
  | closeSignal
  | workerShrinkExit (i : Nat)
  | workerStopExit (i : Nat)
  | workerTake (i : Nat)
  | workerFinish (i : Nat)
deriving DecidableEq, Repr

/-- Small-step semantics. Worker steps follow the body of `worker(index)`:
a worker wakes only when `awakePred` holds; inside the body
`if (shrink_numb)` is checked first (decrement, push own index, `break`),
then `if (!stop)` dequeues the front task; `workerStopExit` is the
`while (!stop)` header failing; `workerFinish` runs `util::invoke(task)`
and, after a normal return, `--total_tasks` (an uncaught raise skips the
decrement and kills the thread). -/
def stepE : Event → Pond → Option Pond
  | .submit r, s => some (submit r s).1
  | .submitForReturn r, s => some (submitForReturn r s).1
  | .submitInBatch cont, s => some (submitInBatch cont cont.length s).1
  | .delThreads n, s => (delThreads n s).map Prod.fst
  | .addThreads n, s => addThreads n s
  | .closeSignal, s => some { s with stop := true }
  | .workerShrinkExit i, s =>
    match s.pond[i]? with
    | some .running =>
      if s.shrink_numb ≠ 0 then
        some { s with shrink_numb := s.shrink_numb - 1
                      deleted_threads := s.deleted_threads ++ [i]
                      pond := s.pond.set i .exited }
      else none
    | _ => none
  | .workerStopExit i, s =>
    match s.pond[i]? with
    | some .running => if s.stop then some { s with pond := s.pond.set i .exited } else none
    | _ => none
  | .workerTake i, s =>
    match s.pond[i]? with
    | some .running =>
      if s.shrink_numb = 0 ∧ s.stop = false then
        match s.shared_tq with
        | t :: rest =>
          some { s with shared_tq := rest
                        pond := s.pond.set i (.busy t)
                        task_loaded := s.task_loaded + 1 }
        | [] => none
      else none
    | _ => none
  | .workerFinish i, s =>
    match s.pond[i]? with
    | some (.busy t) =>
      if invokeCompletes t then
        some { s with total_tasks := s.total_tasks - 1
                      pond := s.pond.set i .running }
      else
        some { s with pond := s.pond.set i .crashed }
    | _ => none

/-- Is this slot currently executing a task? -/
def busyP : WStatus → Bool
  | .busy _ => true
  | _ => false

/-- Did this slot's thread die from an uncaught task failure? -/
def crashedP (st : WStatus) : Bool := st = .crashed

/-- Number of slots currently executing a task. -/
def busyCount (p : List WStatus) : Nat := p.countP busyP

/-- Number of slots whose thread died from an uncaught task failure. -/
def crashedCount (p : List WStatus) : Nat := p.countP crashedP

/-- States reachable from a freshly constructed pond by the step semantics. -/
inductive Reachable : Pond → Prop where
  | init (n : Nat) : Reachable (mkPond n)
  | step (e : Event) (s s' : Pond) : Reachable s → stepE e s = some s' → Reachable s'

/-- Zero or more steps between two states. -/
inductive Steps : Pond → Pond → Prop where
  | refl (s : Pond) : Steps s s
  | tail (e : Event) (s s₁ s₂ : Pond) : Steps s s₁ → stepE e s₁ = some s₂ → Steps s s₂

/-- Run a trace of events from a freshly constructed pond. -/
def runTrace (n : Nat) (es : List Event) : Option Pond :=
  es.foldlM (fun s e => stepE e s) (mkPond n)

/-- Run a trace while recording the running maximum of an observation `f`
over every state of the history (the "historical peak" of `f`). -/
def runPeakBy (f : Pond → Int) (n : Nat) (es : List Event) : Option (Pond × Int) :=
  es.foldlM (fun sp e => (stepE e sp.1).map (fun s' => (s', max sp.2 (f s'))))
    (mkPond n, f (mkPond n))

/-- State invariant maintained by every step: the counters are non-negative,
`total_tasks` counts queued plus in-flight plus leaked-by-crash tasks, the
slot vector's size accounts for live, pending-shrink and recycled slots, and
every recycled index denotes a distinct exited slot. -/
def Inv (s : Pond) : Prop :=
  0 ≤ s.shrink_numb ∧
  0 ≤ s.thread_numb ∧
  s.total_tasks = (s.shared_tq.length : Int) + busyCount s.pond + crashedCount s.pond ∧
  (s.pond.length : Int) = s.thread_numb + s.shrink_numb + (s.deleted_threads.length : Int) ∧
  (∀ i ∈ s.deleted_threads, s.pond[i]? = some .exited) ∧
  s.deleted_threads.Nodup

/-- The part of `Inv` that the grow path relies on: every recycled index
denotes a distinct slot whose thread function has returned. -/
def RecycledOk (s : Pond) : Prop :=
  (∀ i ∈ s.deleted_threads, s.pond[i]? = some .exited) ∧ s.deleted_threads.Nodup

/-- Spawned-minus-exited worker threads: the desired count plus the shrink
requests not yet honoured. The slot vector is bounded by the historical
peak of this quantity. -/
def growPeakF (s : Pond) : Int := s.thread_numb + s.shrink_numb

lemma countP_set (q : WStatus → Bool) :
    ∀ (l : List WStatus) (i : Nat) (a b : WStatus), l[i]? = some a →
      (l.set i b).countP q + (if q a then 1 else 0) =
        l.countP q + (if q b then 1 else 0)
  | [], i, a, b, h => by simp at h
  | x :: xs, 0, a, b, h => by
    simp only [List.getElem?_cons_zero, Option.some.injEq] at h
    subst h
    simp only [List.set_cons_zero, List.countP_cons]
    omega
  | x :: xs, i + 1, a, b, h => by
    simp only [List.getElem?_cons_succ] at h
    have ih := countP_set q xs i a b h
    simp only [List.set_cons_succ, List.countP_cons]
    omega

lemma getElem?_lt {α : Type} {l : List α} {i : Nat} {a : α} (h : l[i]? = some a) :
    i < l.length := by
  rcases List.getElem?_eq_some_iff.mp h with ⟨hlt, _⟩
  exact hlt

lemma not_mem_deleted {s : Pond} {i : Nat} {st : WStatus}
    (hP : ∀ j ∈ s.deleted_threads, s.pond[j]? = some .exited)
    (hi : s.pond[i]? = some st) (hne : st ≠ .exited) : i ∉ s.deleted_threads := by
  intro hmem
  have hx := hP i hmem
  rw [hi] at hx
  exact hne (by injection hx)

lemma inv_mkPond (n : Nat) : Inv (mkPond n) := by
  refine ⟨by simp [mkPond], by simp [mkPond], ?_, ?_, ?_, ?_⟩
  · simp [mkPond, busyCount, crashedCount, List.countP_replicate, busyP, crashedP]
  · simp [mkPond]
  · simp [mkPond]
  · simp [mkPond]

lemma inv_addOne {s s₁ : Pond} (h : Inv s) (hs : addOne s = some s₁) : Inv s₁ := by
  obtain ⟨h1, h2, h3, h4, h5, h6⟩ := h
  unfold addOne at hs
  split at hs
  next idx rest hdel =>
    split at hs
    next hidx =>
      have hs1 : s₁ = { s with deleted_threads := rest
                               pond := s.pond.set idx .running
                               thread_numb := s.thread_numb + 1 } := by
        injection hs with hx
        exact hx.symm
      subst hs1
      have hidxrest : idx ∉ rest := (List.nodup_cons.mp (hdel ▸ h6)).1
      refine ⟨h1, by dsimp only; omega, ?_, ?_, ?_, ?_⟩
      · dsimp only
        have hb := countP_set busyP s.pond idx .exited .running hidx
        have hc := countP_set crashedP s.pond idx .exited .running hidx
        simp [busyP, crashedP] at hb hc
        unfold busyCount crashedCount at h3 ⊢
        omega
      · dsimp only
        rw [hdel] at h4
        simp only [List.length_set, List.length_cons] at h4 ⊢
        push_cast at h4 ⊢
        omega
      · dsimp only
        intro i hi
        have himem : i ∈ s.deleted_threads := by
          rw [hdel]
          exact List.mem_cons_of_mem _ hi
        have hne : i ≠ idx := fun he => hidxrest (he ▸ hi)
        rw [List.getElem?_set_ne (fun he => hne he.symm)]
        exact h5 i himem
      · dsimp only
        exact (List.nodup_cons.mp (hdel ▸ h6)).2
    next hx => exact absurd hs (by simp)
  next hdel =>
    have hs1 : s₁ = { s with pond := s.pond ++ [.running]
                             thread_numb := s.thread_numb + 1 } := by
      injection hs with hx
      exact hx.symm
    subst hs1
    refine ⟨h1, by dsimp only; omega, ?_, ?_, ?_, ?_⟩
    · dsimp only
      unfold busyCount crashedCount at h3 ⊢
      simp [List.countP_append, List.countP_cons, busyP, crashedP]
      omega
    · dsimp only
      rw [hdel] at h4 ⊢
      simp only [List.length_append, List.length_cons, List.length_nil] at h4 ⊢
      push_cast at h4 ⊢
      omega
    · dsimp only
      intro i hi
      have hib : i < s.pond.length := getElem?_lt (h5 i hi)
      rw [List.getElem?_append_left hib]
      exact h5 i hi
    · dsimp only
      exact h6

lemma inv_submit_like {s : Pond} {t : HipeTask} (h : Inv s) :
    Inv { s with shared_tq := s.shared_tq ++ [t]
                 total_tasks := s.total_tasks + 1 } := by
  obtain ⟨h1, h2, h3, h4, h5, h6⟩ := h
  refine ⟨h1, h2, ?_, h4, h5, h6⟩
  dsimp only
  simp only [List.length_append, List.length_cons, List.length_nil]
  push_cast
  omega

lemma countP_set_same (q : WStatus → Bool) {p : List WStatus} {i : Nat} {a : WStatus}
    (b : WStatus) (hp : p[i]? = some a) (hq : q a = q b) :
    (p.set i b).countP q = p.countP q := by
  have hx := countP_set q p i a b hp
  rw [hq] at hx
  omega

lemma countP_set_incr (q : WStatus → Bool) {p : List WStatus} {i : Nat} {a : WStatus}
    (b : WStatus) (hp : p[i]? = some a) (hqa : q a = false) (hqb : q b = true) :
    (p.set i b).countP q = p.countP q + 1 := by
  have hx := countP_set q p i a b hp
  rw [hqa, hqb] at hx
  simp at hx
  omega

lemma countP_set_decr (q : WStatus → Bool) {p : List WStatus} {i : Nat} {a : WStatus}
    (b : WStatus) (hp : p[i]? = some a) (hqa : q a = true) (hqb : q b = false) :
    (p.set i b).countP q + 1 = p.countP q := by
  have hx := countP_set q p i a b hp
  rw [hqa, hqb] at hx
  simp at hx
  omega

lemma P_set_of_ne {s : Pond} {i : Nat} {a : WStatus} (b : WStatus)
    (h5 : ∀ j ∈ s.deleted_threads, s.pond[j]? = some .exited)
    (hi : s.pond[i]? = some a) (ha : a ≠ .exited) :
    ∀ j ∈ s.deleted_threads, (s.pond.set i b)[j]? = some .exited := by
  intro j hj
  have hne : j ≠ i := fun he => (not_mem_deleted h5 hi ha) (he ▸ hj)
  rw [List.getElem?_set_ne (fun he => hne he.symm)]
  exact h5 j hj

lemma addLoop_bind {k : Nat} {s s₁ : Pond} (hs : addOne s = some s₁) :
    addLoop (k + 1) s = addLoop k s₁ := by
  simp [addLoop, hs]

lemma inv_addLoop : ∀ (k : Nat) {s sf : Pond}, Inv s → addLoop k s = some sf → Inv sf
  | 0, s, sf, h, hs => by
    simp only [addLoop, Option.some.injEq] at hs
    exact hs ▸ h
  | k + 1, s, sf, h, hs => by
    simp only [addLoop, Option.bind_eq_bind] at hs
    rcases ho : addOne s with _ | s₁ <;> rw [ho] at hs
    · simp at hs
    · simp only [Option.some_bind] at hs
      exact inv_addLoop k (inv_addOne h ho) hs

lemma inv_step {e : Event} {s s₁ : Pond} (h : Inv s) (hs : stepE e s = some s₁) : Inv s₁ := by
  obtain ⟨h1, h2, h3, h4, h5, h6⟩ := h
  cases e with
  | submit r =>
    simp only [stepE, Option.some.injEq] at hs
    subst hs
    exact inv_submit_like ⟨h1, h2, h3, h4, h5, h6⟩
  | submitForReturn r =>
    simp only [stepE, Option.some.injEq] at hs
    subst hs
    exact inv_submit_like ⟨h1, h2, h3, h4, h5, h6⟩
  | submitInBatch cont =>
    simp only [stepE, Option.some.injEq] at hs
    subst hs
    unfold submitInBatch
    refine ⟨h1, h2, ?_, h4, h5, h6⟩
    dsimp only
    simp only [List.take_length, List.length_append]
    push_cast
    omega
  | delThreads n =>
    simp only [stepE] at hs
    unfold delThreads at hs
    split at hs
    next hpre =>
      simp only [Option.map, Option.some.injEq] at hs
      subst hs
      refine ⟨by dsimp only; omega, by dsimp only; omega, h3, ?_, h5, h6⟩
      dsimp only
      omega
    next hpre => simp at hs
  | addThreads n =>
    simp only [stepE] at hs
    unfold addThreads at hs
    split at hs
    next hn => exact inv_addLoop _ ⟨h1, h2, h3, h4, h5, h6⟩ hs
    next hn => simp at hs
  | closeSignal =>
    simp only [stepE, Option.some.injEq] at hs
    subst hs
    exact ⟨h1, h2, h3, h4, h5, h6⟩
  | workerShrinkExit i =>
    simp only [stepE] at hs
    split at hs
    next hrun =>
      split at hs
      next hshr =>
        simp only [Option.some.injEq] at hs
        subst hs
        have hnotin : i ∉ s.deleted_threads := not_mem_deleted h5 hrun (by simp)
        refine ⟨by dsimp only; omega, h2, ?_, ?_, ?_, ?_⟩
        · dsimp only
          unfold busyCount crashedCount at h3 ⊢
          rw [countP_set_same busyP .exited hrun rfl, countP_set_same crashedP .exited hrun rfl]
          exact h3
        · dsimp only
          simp only [List.length_set, List.length_append, List.length_cons, List.length_nil]
          push_cast
          omega
        · dsimp only
          intro j hj
          rcases List.mem_append.mp hj with hj1 | hj2
          · exact P_set_of_ne .exited h5 hrun (by simp) j hj1
          · have : j = i := by simpa using hj2
            subst this
            rw [List.getElem?_set_self (getElem?_lt hrun)]
        · dsimp only
          refine List.Nodup.append h6 (List.nodup_singleton i) ?_
          intro a ha hai
          have : a = i := by simpa using hai
          exact hnotin (this ▸ ha)
      next hshr => simp at hs
    next hother => simp at hs
  | workerStopExit i =>
    simp only [stepE] at hs
    split at hs
    next hrun =>
      split at hs
      next hstop =>
        simp only [Option.some.injEq] at hs
        subst hs
        refine ⟨h1, h2, ?_, ?_, ?_, h6⟩
        · dsimp only
          unfold busyCount crashedCount at h3 ⊢
          rw [countP_set_same busyP .exited hrun rfl, countP_set_same crashedP .exited hrun rfl]
          exact h3
        · dsimp only
          simp only [List.length_set]
          omega
        · exact P_set_of_ne .exited h5 hrun (by simp)
      next hstop => simp at hs
    next hother => simp at hs
  | workerTake i =>
    simp only [stepE] at hs
    split at hs
    next hrun =>
      split at hs
      next hguard =>
        split at hs
        next t rest htq =>
          simp only [Option.some.injEq] at hs
          subst hs
          refine ⟨h1, h2, ?_, ?_, ?_, h6⟩
          · dsimp only
            unfold busyCount crashedCount at h3 ⊢
            rw [countP_set_incr busyP (.busy t) hrun rfl rfl, countP_set_same crashedP (.busy t) hrun rfl]
            rw [htq] at h3
            simp only [List.length_cons] at h3
            push_cast at h3 ⊢
            omega
          · dsimp only
            simp only [List.length_set]
            omega
          · exact P_set_of_ne _ h5 hrun (by simp)
        next htq => simp at hs
      next hguard => simp at hs
    next hother => simp at hs
  | workerFinish i =>
    simp only [stepE] at hs
    split at hs
    next t hbusy =>
      split at hs
      next hinv =>
        simp only [Option.some.injEq] at hs
        subst hs
        refine ⟨h1, h2, ?_, ?_, ?_, h6⟩
        · dsimp only
          unfold busyCount crashedCount at h3 ⊢
          rw [← countP_set_decr busyP .running hbusy rfl rfl] at h3
          rw [countP_set_same crashedP .running hbusy rfl]
          push_cast at h3 ⊢
          omega
        · dsimp only
          simp only [List.length_set]
          omega
        · exact P_set_of_ne _ h5 hbusy (by simp)
      next hinv =>
        simp only [Option.some.injEq] at hs
        subst hs
        refine ⟨h1, h2, ?_, ?_, ?_, h6⟩
        · dsimp only
          unfold busyCount crashedCount at h3 ⊢
          rw [← countP_set_decr busyP .crashed hbusy rfl rfl] at h3
          rw [countP_set_incr crashedP .crashed hbusy rfl rfl]
          push_cast at h3 ⊢
          omega
        · dsimp only
          simp only [List.length_set]
          omega
        · exact P_set_of_ne _ h5 hbusy (by simp)
    next hother => simp at hs

/-- `Inv` holds in every reachable state. -/
lemma inv_reachable {s : Pond} (h : Reachable s) : Inv s := by
  induction h with
  | init n => exact inv_mkPond n
  | step e s s₁ hr hs ih => exact inv_step ih hs

lemma steps_reachable {s s₂ : Pond} (hst : Steps s s₂) : Reachable s → Reachable s₂ := by
  induction hst with
  | refl s => exact fun h => h
  | tail e s sa sb hst hs ih => exact fun h => Reachable.step e sa sb (ih h) hs

lemma crashed_addOne {s s₁ : Pond} (hs : addOne s = some s₁) :
    crashedCount s.pond ≤ crashedCount s₁.pond := by
  unfold addOne at hs
  split at hs
  next idx rest hdel =>
    split at hs
    next hidx =>
      simp only [Option.some.injEq] at hs
      subst hs
      dsimp only [crashedCount]
      rw [countP_set_same crashedP .running hidx rfl]
    next hx => simp at hs
  next hdel =>
    simp only [Option.some.injEq] at hs
    subst hs
    dsimp only [crashedCount]
    simp [List.countP_append, List.countP_cons, crashedP]

lemma crashed_addLoop : ∀ (k : Nat) {s s₁ : Pond}, addLoop k s = some s₁ →
    crashedCount s.pond ≤ crashedCount s₁.pond
  | 0, s, s₁, hs => by
    simp only [addLoop, Option.some.injEq] at hs
    exact hs ▸ Nat.le_refl _
  | k + 1, s, s₁, hs => by
    simp only [addLoop, Option.bind_eq_bind] at hs
    rcases ho : addOne s with _ | sm <;> rw [ho] at hs
    · simp at hs
    · simp only [Option.some_bind] at hs
      exact Nat.le_trans (crashed_addOne ho) (crashed_addLoop k hs)

lemma crashed_step {e : Event} {s s₁ : Pond} (hs : stepE e s = some s₁) :
    crashedCount s.pond ≤ crashedCount s₁.pond := by
  cases e with
  | submit r =>
    simp only [stepE, Option.some.injEq] at hs
    subst hs
    exact Nat.le_refl _
  | submitForReturn r =>
    simp only [stepE, Option.some.injEq] at hs
    subst hs
    exact Nat.le_refl _
  | submitInBatch cont =>
    simp only [stepE, Option.some.injEq] at hs
    subst hs
    exact Nat.le_refl _
  | delThreads n =>
    simp only [stepE] at hs
    unfold delThreads at hs
    split at hs
    next hpre =>
      simp only [Option.map, Option.some.injEq] at hs
      subst hs
      exact Nat.le_refl _
    next hpre => simp at hs
  | addThreads n =>
    simp only [stepE] at hs
    unfold addThreads at hs
    split at hs
    next hn => exact crashed_addLoop _ hs
    next hn => simp at hs
  | closeSignal =>
    simp only [stepE, Option.some.injEq] at hs
    subst hs
    exact Nat.le_refl _
  | workerShrinkExit i =>
    simp only [stepE] at hs
    split at hs
    next hrun =>
      split at hs
      next hshr =>
        simp only [Option.some.injEq] at hs
        subst hs
        dsimp only [crashedCount]
        rw [countP_set_same crashedP .exited hrun rfl]
      next hshr => simp at hs
    next hother => simp at hs
  | workerStopExit i =>
    simp only [stepE] at hs
    split at hs
    next hrun =>
      split at hs
      next hstop =>
        simp only [Option.some.injEq] at hs
        subst hs
        dsimp only [crashedCount]
        rw [countP_set_same crashedP .exited hrun rfl]
      next hstop => simp at hs
    next hother => simp at hs
  | workerTake i =>
    simp only [stepE] at hs
    split at hs
    next hrun =>
      split at hs
      next hguard =>
        split at hs
        next t rest htq =>
          simp only [Option.some.injEq] at hs
          subst hs
          dsimp only [crashedCount]
          rw [countP_set_same crashedP (.busy t) hrun rfl]
        next htq => simp at hs
      next hguard => simp at hs
    next hother => simp at hs
  | workerFinish i =>
    simp only [stepE] at hs
    split at hs
    next t hbusy =>
      split at hs
      next hinv =>
        simp only [Option.some.injEq] at hs
        subst hs
        dsimp only [crashedCount]
        rw [countP_set_same crashedP .running hbusy rfl]
      next hinv =>
        simp only [Option.some.injEq] at hs
        subst hs
        dsimp only [crashedCount]
        rw [countP_set_incr crashedP .crashed hbusy rfl rfl]
        omega
    next hother => simp at hs

lemma crashed_steps {s s₂ : Pond} (hst : Steps s s₂) :
    crashedCount s.pond ≤ crashedCount s₂.pond := by
  induction hst with
  | refl s => exact Nat.le_refl _
  | tail e s sa sb hst hs ih => exact Nat.le_trans ih (crashed_step hs)

lemma len_addOne {s s₁ : Pond} (hs : addOne s = some s₁) :
    s.pond.length ≤ s₁.pond.length := by
  unfold addOne at hs
  split at hs
  next idx rest hdel =>
    split at hs
    next hidx =>
      simp only [Option.some.injEq] at hs
      subst hs
      simp
    next hx => simp at hs
  next hdel =>
    simp only [Option.some.injEq] at hs
    subst hs
    simp

lemma len_addLoop : ∀ (k : Nat) {s s₁ : Pond}, addLoop k s = some s₁ →
    s.pond.length ≤ s₁.pond.length
  | 0, s, s₁, hs => by
    simp only [addLoop, Option.some.injEq] at hs
    exact hs ▸ Nat.le_refl _
  | k + 1, s, s₁, hs => by
    simp only [addLoop, Option.bind_eq_bind] at hs
    rcases ho : addOne s with _ | sm <;> rw [ho] at hs
    · simp at hs
    · simp only [Option.some_bind] at hs
      exact Nat.le_trans (len_addOne ho) (len_addLoop k hs)

lemma growPeakF_addOne {s s₁ : Pond} (hs : addOne s = some s₁) :
    growPeakF s ≤ growPeakF s₁ := by
  unfold addOne at hs
  split at hs
  next idx rest hdel =>
    split at hs
    next hidx =>
      simp only [Option.some.injEq] at hs
      subst hs
      unfold growPeakF
      dsimp only
      omega
    next hx => simp at hs
  next hdel =>
    simp only [Option.some.injEq] at hs
    subst hs
    unfold growPeakF
    dsimp only
    omega

lemma growPeakF_addLoop : ∀ (k : Nat) {s s₁ : Pond}, addLoop k s = some s₁ →
    growPeakF s ≤ growPeakF s₁
  | 0, s, s₁, hs => by
    simp only [addLoop, Option.some.injEq] at hs
    exact hs ▸ Int.le_refl _
  | k + 1, s, s₁, hs => by
    simp only [addLoop, Option.bind_eq_bind] at hs
    rcases ho : addOne s with _ | sm <;> rw [ho] at hs
    · simp at hs
    · simp only [Option.some_bind] at hs
      exact Int.le_trans (growPeakF_addOne ho) (growPeakF_addLoop k hs)

lemma lenBound_addLoop : ∀ (k : Nat) {s s₁ : Pond}, Inv s → addLoop k s = some s₁ →
    (s₁.pond.length : Int) ≤ s.pond.length ∨ (s₁.pond.length : Int) ≤ growPeakF s₁
  | 0, s, s₁, h, hs => by
    simp only [addLoop, Option.some.injEq] at hs
    subst hs
    exact Or.inl (Int.le_refl _)
  | k + 1, s, s₁, h, hs => by
    simp only [addLoop, Option.bind_eq_bind] at hs
    rcases ho : addOne s with _ | sm <;> rw [ho] at hs
    · simp at hs
    · simp only [Option.some_bind] at hs
      have hInvm : Inv sm := inv_addOne h ho
      have hIH := lenBound_addLoop k hInvm hs
      have hfmono : growPeakF sm ≤ growPeakF s₁ := growPeakF_addLoop k hs
      obtain ⟨h1, h2, h3, h4, h5, h6⟩ := h
      unfold addOne at ho
      split at ho
      next idx rest hdel =>
        split at ho
        next hidx =>
          simp only [Option.some.injEq] at ho
          subst ho
          rcases hIH with hL | hR
          · left
            simp only [List.length_set] at hL
            exact hL
          · exact Or.inr hR
        next hx => simp at ho
      next hdel =>
        simp only [Option.some.injEq] at ho
        subst ho
        rcases hIH with hL | hR
        · right
          unfold growPeakF at hfmono ⊢
          dsimp only at hfmono
          simp only [List.length_append, List.length_cons, List.length_nil] at hL
          rw [hdel] at h4
          simp only [List.length_nil] at h4
          push_cast at hL h4
          omega
        · exact Or.inr hR

lemma lenBound_step {e : Event} {s s₁ : Pond} (h : Inv s) (hs : stepE e s = some s₁) :
    ((s₁.pond.length : Int) ≤ s.pond.length) ∨ ((s₁.pond.length : Int) ≤ growPeakF s₁) := by
  cases e with
  | submit r =>
    simp only [stepE, Option.some.injEq] at hs
    subst hs
    exact Or.inl (Int.le_refl _)
  | submitForReturn r =>
    simp only [stepE, Option.some.injEq] at hs
    subst hs
    exact Or.inl (Int.le_refl _)
  | submitInBatch cont =>
    simp only [stepE, Option.some.injEq] at hs
    subst hs
    exact Or.inl (Int.le_refl _)
  | delThreads n =>
    simp only [stepE] at hs
    unfold delThreads at hs
    split at hs
    next hpre =>
      simp only [Option.map, Option.some.injEq] at hs
      subst hs
      exact Or.inl (Int.le_refl _)
    next hpre => simp at hs
  | addThreads n =>
    simp only [stepE] at hs
    unfold addThreads at hs
    split at hs
    next hn => exact lenBound_addLoop _ h hs
    next hn => simp at hs
  | closeSignal =>
    simp only [stepE, Option.some.injEq] at hs
    subst hs
    exact Or.inl (Int.le_refl _)
  | workerShrinkExit i =>
    simp only [stepE] at hs
    split at hs
    next hrun =>
      split at hs
      next hshr =>
        simp only [Option.some.injEq] at hs
        subst hs
        left
        simp
      next hshr => simp at hs
    next hother => simp at hs
  | workerStopExit i =>
    simp only [stepE] at hs
    split at hs
    next hrun =>
      split at hs
      next hstop =>
        simp only [Option.some.injEq] at hs
        subst hs
        left
        simp
      next hstop => simp at hs
    next hother => simp at hs
  | workerTake i =>
    simp only [stepE] at hs
    split at hs
    next hrun =>
      split at hs
      next hguard =>
        split at hs
        next t rest htq =>
          simp only [Option.some.injEq] at hs
          subst hs
          left
          simp
        next htq => simp at hs
      next hguard => simp at hs
    next hother => simp at hs
  | workerFinish i =>
    simp only [stepE] at hs
    split at hs
    next t hbusy =>
      split at hs
      next hinv =>
        simp only [Option.some.injEq] at hs
        subst hs
        left
        simp
      next hinv =>
        simp only [Option.some.injEq] at hs
        subst hs
        left
        simp
    next hother => simp at hs

lemma peakAux : ∀ (es : List Event) (s₀ : Pond) (p₀ : Int) (sp : Pond × Int),
    Inv s₀ → (s₀.pond.length : Int) ≤ p₀ →
    List.foldlM (fun sp e => (stepE e sp.1).map (fun sn => (sn, max sp.2 (growPeakF sn))))
      (s₀, p₀) es = some sp →
    Inv sp.1 ∧ (sp.1.pond.length : Int) ≤ sp.2
  | [], s₀, p₀, sp, h, hlen, hf => by
    simp only [List.foldlM_nil] at hf
    have hsp : (s₀, p₀) = sp := by
      simpa using hf
    exact hsp ▸ ⟨h, hlen⟩
  | e :: es, s₀, p₀, sp, h, hlen, hf => by
    simp only [List.foldlM_cons] at hf
    rcases ho : stepE e s₀ with _ | s1 <;> rw [ho] at hf
    · simp at hf
    · simp only [Option.map, Option.some_bind] at hf
      have hInv1 : Inv s1 := inv_step h ho
      have hlen1 : (s1.pond.length : Int) ≤ max p₀ (growPeakF s1) := by
        rcases lenBound_step h ho with hL | hR
        · exact le_trans (le_trans hL hlen) (le_max_left _ _)
        · exact le_trans hR (le_max_right _ _)
      exact peakAux es s1 (max p₀ (growPeakF s1)) sp hInv1 hlen1 hf

lemma recOk_addOne {s : Pond} (h : RecycledOk s) :
    ∃ s₁, addOne s = some s₁ ∧ s₁.thread_numb = s.thread_numb + 1 ∧ RecycledOk s₁ := by
  obtain ⟨hP, hN⟩ := h
  rcases hdel : s.deleted_threads with _ | ⟨idx, rest⟩
  · refine ⟨{ s with pond := s.pond ++ [.running], thread_numb := s.thread_numb + 1 }, ?_, rfl, ?_, ?_⟩
    · simp [addOne, hdel]
    · dsimp only
      intro i hi
      rw [hdel] at hi
      simp at hi
    · dsimp only
      rw [hdel]
      exact List.nodup_nil
  · have hmem : idx ∈ s.deleted_threads := by
      rw [hdel]
      exact List.mem_cons_self idx rest
    have hidx : s.pond[idx]? = some .exited := hP idx hmem
    have hnd := hdel ▸ hN
    refine ⟨{ s with deleted_threads := rest
                     pond := s.pond.set idx .running
                     thread_numb := s.thread_numb + 1 }, ?_, rfl, ?_, ?_⟩
    · simp [addOne, hdel, hidx]
    · dsimp only
      intro i hi
      have hne : i ≠ idx := fun he => (List.nodup_cons.mp hnd).1 (he ▸ hi)
      rw [List.getElem?_set_ne (fun he => hne he.symm)]
      exact hP i (by rw [hdel]; exact List.mem_cons_of_mem _ hi)
    · dsimp only
      exact (List.nodup_cons.mp hnd).2

lemma recOk_addLoop : ∀ (k : Nat) {s : Pond}, RecycledOk s →
    ∃ s₁, addLoop k s = some s₁ ∧ s₁.thread_numb = s.thread_numb + k ∧ RecycledOk s₁
  | 0, s, h => ⟨s, rfl, by simp, h⟩
  | k + 1, s, h => by
    obtain ⟨sm, hm, hnumb, hrec⟩ := recOk_addOne h
    obtain ⟨s₁, h1, hnumb1, hrec1⟩ := recOk_addLoop k hrec
    refine ⟨s₁, ?_, ?_, hrec1⟩
    · rw [addLoop_bind hm]
      exact h1
    · rw [hnumb1, hnumb]
      push_cast
      omega

lemma numb_addOne {s s₁ : Pond} (hs : addOne s = some s₁) :
    s₁.thread_numb = s.thread_numb + 1 := by
  unfold addOne at hs
  split at hs
  next idx rest hdel =>
    split at hs
    next hidx =>
      simp only [Option.some.injEq] at hs
      subst hs
      rfl
    next hx => simp at hs
  next hdel =>
    simp only [Option.some.injEq] at hs
    subst hs
    rfl

lemma numb_addLoop : ∀ (k : Nat) {s s₁ : Pond}, addLoop k s = some s₁ →
    s₁.thread_numb = s.thread_numb + k
  | 0, s, s₁, hs => by
    simp only [addLoop, Option.some.injEq] at hs
    subst hs
    simp
  | k + 1, s, s₁, hs => by
    simp only [addLoop, Option.bind_eq_bind] at hs
    rcases ho : addOne s with _ | sm <;> rw [ho] at hs
    · simp at hs
    · simp only [Option.some_bind] at hs
      have h1 := numb_addLoop k hs
      have h2 := numb_addOne ho
      rw [h1, h2]
      push_cast
      omega

lemma joinThread_ok {st j : WStatus} (h : joinThread st = .ok j) : j = .joined := by
  unfold joinThread at h
  split at h
  · simp at h
  · injection h with hx
    exact hx.symm

lemma joinAll_ok_shape : ∀ {l p : List WStatus}, joinAll l = .ok p →
    p = List.replicate l.length .joined
  | [], p, h => by
    simp only [joinAll, Except.ok.injEq] at h
    subst h
    simp
  | st :: rest, p, h => by
    unfold joinAll at h
    rcases hjt : joinThread st with e | j <;> rw [hjt] at h
    · simp at h
    · rcases hja : joinAll rest with e2 | js <;> rw [hja] at h
      · simp at h
      · simp only [Except.ok.injEq] at h
        subst h
        rw [joinThread_ok hjt, joinAll_ok_shape hja]
        simp [List.replicate_succ]

lemma joinAll_joined_head (l : List WStatus) :
    joinAll (.joined :: l) = .error "join on a non-joinable thread" := rfl

lemma closeFn_ok_shape {s s₁ : Pond} (h : closeFn s = .ok s₁) :
    s₁ = { s with stop := true, pond := List.replicate s.pond.length .joined } := by
  unfold closeFn at h
  dsimp only at h
  rcases hj : joinAll s.pond with e | p <;> rw [hj] at h
  · simp [Except.map] at h
  · simp only [Except.map, Except.ok.injEq] at h
    rw [← h, joinAll_ok_shape hj]

lemma closeFn_of_empty {s : Pond} (hstop : s.stop = true) (hpond : s.pond = []) :
    closeFn s = .ok s := by
  unfold closeFn
  dsimp only
  rw [hpond]
  show Except.ok { s with stop := true, pond := ([] : List WStatus) } = Except.ok s
  rw [← hstop, ← hpond]

/-- C1 counterexample: on a pond constructed with one worker, the first
`close()` completes, but a second `close()` faults — it re-joins the
already-joined thread in `pond`, and `std::thread::join` on a non-joinable
thread throws. So the second call is not a no-op that completes without
fault. -/
theorem close_twice_not_noop :
    (closeFn (mkPond 1)).isOk = true ∧ ((closeFn (mkPond 1)).bind closeFn).isOk = false := by
  decide

/-- C1 (amended): after a completed `close()`, a second `close()` completes
(as a no-op up to re-setting `stop`) only when the pond vector is empty,
i.e. the pool never had a worker slot; whenever the pond holds at least one
slot, the second call faults by joining a non-joinable thread. (The
destructor avoids the second call through its `if (!stop)` guard.) -/
theorem close_idempotent_only_when_pond_empty (s s₁ : Pond) (h : closeFn s = .ok s₁) :
    (s₁.pond = [] → closeFn s₁ = .ok s₁) ∧
    (s₁.pond ≠ [] → (closeFn s₁).isOk = false) := by
  have hshape := closeFn_ok_shape h
  constructor
  · intro hpond
    refine closeFn_of_empty ?_ hpond
    rw [hshape]
  · intro hpond
    have hpond2 : s₁.pond = List.replicate s.pond.length .joined := by rw [hshape]
    rcases hn : s.pond.length with _ | k
    · rw [hn] at hpond2
      simp at hpond2
      exact absurd hpond2 hpond
    · rw [hn, List.replicate_succ] at hpond2
      unfold closeFn
      dsimp only
      rw [hpond2, joinAll_joined_head]
      rfl

theorem close_idempotent_only_when_pond_empty_witness :
    (closeFn { mkPond 0 with stop := true } = .ok { mkPond 0 with stop := true }) ∧
    (closeFn { mkPond 1 with stop := true, pond := [.joined] }).isOk = false := by
  constructor
  · exact (close_idempotent_only_when_pond_empty (mkPond 0) { mkPond 0 with stop := true }
      rfl).1 (by decide)
  · exact (close_idempotent_only_when_pond_empty (mkPond 1)
      { mkPond 1 with stop := true, pond := [.joined] } rfl).2 (by decide)

/-- C2 counterexample: `close()` never writes `thread_numb`, so on a pool
built with two workers, `getThreadNumb()` still returns 2 after `close()`,
not 0. -/
theorem getThreadNumb_after_close_not_zero :
    ((closeFn (mkPond 2)).map getThreadNumb = .ok 2) ∧ (2 : Int) ≠ 0 :=
  ⟨rfl, by decide⟩

/-- C2 (amended): after `close()` has been called, `getThreadNumb()`
returns exactly the desired thread count from before the call — `close`
does not modify `thread_numb` — so it reads 0 only when the count was
already 0. -/
theorem close_preserves_getThreadNumb (s s₁ : Pond) (h : closeFn s = .ok s₁) :
    getThreadNumb s₁ = getThreadNumb s ∧ (getThreadNumb s₁ = 0 ↔ getThreadNumb s = 0) := by
  have hshape := closeFn_ok_shape h
  constructor
  · rw [hshape]
    rfl
  · rw [hshape]
    exact Iff.rfl

theorem close_preserves_getThreadNumb_witness :
    getThreadNumb { mkPond 0 with stop := true } = getThreadNumb (mkPond 0) :=
  (close_preserves_getThreadNumb (mkPond 0) { mkPond 0 with stop := true } rfl).1

/-- C3: for a sequence of M tasks, `submitInBatch` — one critical section,
embedded as the single state transformer below — adds exactly M to
`total_tasks` in one update (so no reader of the lock-protected state can
see a partial increment), appends all M elements to the shared queue as one
contiguous run in the sequence's order, leaves every other field untouched,
and then wakes all waiting workers (`notify_all`), not one. -/
theorem submitInBatch_spec (cont : List HipeTask) (s : Pond) :
    (submitInBatch cont cont.length s).1.shared_tq = s.shared_tq ++ cont ∧
    (submitInBatch cont cont.length s).1.total_tasks = s.total_tasks + cont.length ∧
    (submitInBatch cont cont.length s).2 = Wake.all ∧
    (submitInBatch cont cont.length s).1.pond = s.pond ∧
    (submitInBatch cont cont.length s).1.thread_numb = s.thread_numb ∧
    (submitInBatch cont cont.length s).1.shrink_numb = s.shrink_numb ∧
    (submitInBatch cont cont.length s).1.deleted_threads = s.deleted_threads ∧
    (submitInBatch cont cont.length s).1.stop = s.stop ∧
    (submitInBatch cont cont.length s).1.waiting = s.waiting ∧
    (submitInBatch cont cont.length s).1.task_loaded = s.task_loaded := by
  unfold submitInBatch
  refine ⟨?_, rfl, rfl, rfl, rfl, rfl, rfl, rfl, rfl, rfl⟩
  dsimp only
  rw [List.take_length]

/-- C4: a worker woken from `awake_cv.wait` while the shrink counter is
positive takes the shrink branch: the wake predicate holds, the shrink-exit
step decrements `shrink_numb` by exactly one, appends the worker's own slot
index to `deleted_threads`, marks the slot exited (the loop `break`s) and
leaves the task queue untouched; the dequeue step is impossible in that
state — even when the queue is non-empty — because the worker checks
`if (shrink_numb)` before `if (!stop)`. -/
theorem worker_shrink_priority (s : Pond) (i : Nat)
    (hrun : s.pond[i]? = some .running) (hpos : 0 < s.shrink_numb) :
    awakePred s = true ∧
    stepE (.workerShrinkExit i) s =
      some { s with shrink_numb := s.shrink_numb - 1
                    deleted_threads := s.deleted_threads ++ [i]
                    pond := s.pond.set i .exited } ∧
    stepE (.workerTake i) s = none := by
  have hne : s.shrink_numb ≠ 0 := by omega
  refine ⟨?_, ?_, ?_⟩
  · simp [awakePred, hpos]
  · simp [stepE, hrun, hne]
  · simp [stepE, hrun, hne]

theorem worker_shrink_priority_witness :
    awakePred { mkPond 1 with shrink_numb := 1, shared_tq := [⟨false, false⟩], total_tasks := 1 } = true ∧
    stepE (.workerShrinkExit 0) { mkPond 1 with shrink_numb := 1, shared_tq := [⟨false, false⟩], total_tasks := 1 } = some { mkPond 1 with shrink_numb := 0, deleted_threads := [0], pond := [.exited], shared_tq := [⟨false, false⟩], total_tasks := 1 } ∧
    stepE (.workerTake 0) { mkPond 1 with shrink_numb := 1, shared_tq := [⟨false, false⟩], total_tasks := 1 } = none := by
  have h := worker_shrink_priority
    { mkPond 1 with shrink_numb := 1, shared_tq := [⟨false, false⟩], total_tasks := 1 } 0
    (by decide) (by decide)
  exact ⟨h.1, h.2.1, h.2.2⟩

/-- C5: under the precondition `0 ≤ n ≤ thread_numb`, `delThreads(n)` adds
`n` to the shrink counter, subtracts `n` from the desired thread count,
wakes all workers (`notify_all`) and returns at once — no join, no change
to the pond vector or the recycle queue; a violated precondition is the
fatal `assert`, never a silent clamp. -/
theorem delThreads_spec (n : Int) (s : Pond) :
    (0 ≤ n → n ≤ s.thread_numb →
      delThreads n s =
        some ({ s with shrink_numb := s.shrink_numb + n
                       thread_numb := s.thread_numb - n }, Wake.all)) ∧
    (¬ (n ≤ s.thread_numb ∧ 0 ≤ n) → delThreads n s = none) := by
  constructor
  · intro h0 hn
    unfold delThreads
    rw [if_pos ⟨hn, h0⟩]
  · intro hviol
    unfold delThreads
    rw [if_neg hviol]

theorem delThreads_spec_witness :
    (delThreads 1 (mkPond 2) =
      some ({ mkPond 2 with shrink_numb := (mkPond 2).shrink_numb + 1
                            thread_numb := (mkPond 2).thread_numb - 1 }, Wake.all)) ∧
    delThreads 3 (mkPond 2) = none := by
  constructor
  · exact (delThreads_spec 1 (mkPond 2)).1 (by decide) (by decide)
  · exact (delThreads_spec 3 (mkPond 2)).2 (by decide)

/-- C6 counterexample: construct the pond with 2 workers, call
`delThreads(2)` and then `addThreads(2)` before either worker has observed
the shrink request (both are legal, non-blocking calls and no worker step
is required in between). The recycle queue is still empty, so `addThreads`
appends two brand-new slots: the slot vector now has 4 entries while the
historical peak of the desired thread count (`thread_numb`) is 2 — the
claimed bound by the historical peak thread count is violated. -/
theorem pond_exceeds_peak_thread_numb :
    (runPeakBy (fun s => s.thread_numb) 2 [.delThreads 2, .addThreads 2]).map
        (fun sp => ((sp.1.pond.length : Int), sp.2)) = some (4, 2) ∧
    ¬ ((4 : Int) ≤ 2) := by
  decide

/-- C6 (amended): each iteration of `addThreads` consumes the recycle queue
first — it pops the front index, joins the exited thread there and rebinds
a new worker to the same index — and appends a new slot only when the
recycle queue is empty; every completed iteration adds one to the desired
thread count, the slot vector never shrinks, and its size is bounded by the
historical peak of spawned-but-not-yet-exited workers — desired count plus
pending shrink requests (`thread_numb + shrink_numb`) — rather than by the
historical peak of the desired count alone. -/
theorem addThreads_recycle_and_bound :
    (∀ (s : Pond) (idx : Nat) (rest : List Nat), s.deleted_threads = idx :: rest →
      s.pond[idx]? = some .exited →
      addOne s = some { s with deleted_threads := rest
                               pond := s.pond.set idx .running
                               thread_numb := s.thread_numb + 1 }) ∧
    (∀ s : Pond, s.deleted_threads = [] →
      addOne s = some { s with pond := s.pond ++ [.running]
                               thread_numb := s.thread_numb + 1 }) ∧
    (∀ (k : Nat) (s s₁ : Pond), addLoop k s = some s₁ →
      s.pond.length ≤ s₁.pond.length ∧ s₁.thread_numb = s.thread_numb + k) ∧
    (∀ (n : Nat) (es : List Event) (sp : Pond × Int),
      runPeakBy growPeakF n es = some sp → (sp.1.pond.length : Int) ≤ sp.2) := by
  refine ⟨?_, ?_, ?_, ?_⟩
  · intro s idx rest hdel hidx
    simp [addOne, hdel, hidx]
  · intro s hdel
    simp [addOne, hdel]
  · intro k s s₁ hs
    exact ⟨len_addLoop k hs, numb_addLoop k hs⟩
  · intro n es sp hrun
    unfold runPeakBy at hrun
    refine (peakAux es (mkPond n) (growPeakF (mkPond n)) sp (inv_mkPond n) ?_ hrun).2
    simp [mkPond, growPeakF]

theorem addThreads_recycle_and_bound_witness :
    addOne { mkPond 1 with deleted_threads := [0], pond := [.exited] } = some { mkPond 1 with deleted_threads := ([] : List Nat), pond := [.running], thread_numb := 2 } ∧
    addOne (mkPond 0) = some { mkPond 0 with pond := [.running], thread_numb := 1 } ∧
    ((( { mkPond 2 with pond := [.running, .running, .running, .running], shrink_numb := 2 } : Pond).pond.length : Int) ≤ 4) := by
  refine ⟨?_, ?_, ?_⟩
  · exact addThreads_recycle_and_bound.1 { mkPond 1 with deleted_threads := [0], pond := [.exited] } 0 [] rfl (by decide)
  · exact addThreads_recycle_and_bound.2.1 (mkPond 0) rfl
  · exact addThreads_recycle_and_bound.2.2.2 2 [.delThreads 2, .addThreads 2]
      ({ mkPond 2 with pond := [.running, .running, .running, .running], shrink_numb := 2 }, 4) (by decide)

/-- C7: in every reachable state the outstanding counter `total_tasks` is
non-negative; it always equals queued plus in-flight (and crash-leaked)
tasks, so it includes tasks currently running. Each submission path —
`submit`, `submitForReturn`, `submitInBatch` — adds to it at enqueue time;
the worker's dequeue step leaves it unchanged (no decrement at dequeue),
and the decrement happens only in the finish step, after `util::invoke`
returns. -/
theorem total_tasks_spec (s : Pond) (h : Reachable s) :
    0 ≤ s.total_tasks ∧
    s.total_tasks = (s.shared_tq.length : Int) + busyCount s.pond + crashedCount s.pond ∧
    (∀ r : Bool, (submit r s).1.total_tasks = s.total_tasks + 1) ∧
    (∀ r : Bool, (submitForReturn r s).1.total_tasks = s.total_tasks + 1) ∧
    (∀ cont : List HipeTask,
      (submitInBatch cont cont.length s).1.total_tasks = s.total_tasks + cont.length) ∧
    (∀ (i : Nat) (s₂ : Pond), stepE (.workerTake i) s = some s₂ →
      s₂.total_tasks = s.total_tasks) ∧
    (∀ (i : Nat) (t : HipeTask), s.pond[i]? = some (.busy t) → invokeCompletes t = true →
      stepE (.workerFinish i) s =
        some { s with total_tasks := s.total_tasks - 1, pond := s.pond.set i .running }) := by
  obtain ⟨h1, h2, h3, h4, h5, h6⟩ := inv_reachable h
  refine ⟨by omega, h3, fun r => rfl, fun r => rfl, fun cont => rfl, ?_, ?_⟩
  · intro i s₂ hstep
    simp only [stepE] at hstep
    split at hstep
    next hrun =>
      split at hstep
      next hguard =>
        split at hstep
        next t rest htq =>
          simp only [Option.some.injEq] at hstep
          subst hstep
          rfl
        next htq => simp at hstep
      next hguard => simp at hstep
    next hother => simp at hstep
  · intro i t hbusy hinvoke
    simp [stepE, hbusy, hinvoke]

theorem total_tasks_spec_witness :
    0 ≤ (mkPond 1).total_tasks ∧
    (submit false (mkPond 1)).1.total_tasks = (mkPond 1).total_tasks + 1 :=
  ⟨(total_tasks_spec (mkPond 1) (Reachable.init 1)).1,
   (total_tasks_spec (mkPond 1) (Reachable.init 1)).2.2.1 false⟩

/-- C8: `waitForTasks` sets the `waiting` flag and waits on `task_done_cv`
with the predicate `!total_tasks`, i.e. outstanding counter equals zero; a
cv wait evaluates the predicate under the lock first and returns without
blocking when it already holds, after which `waiting` is cleared — so with
`total_tasks = 0` at call time the call returns immediately with the flag
cleared, and otherwise the caller parks with the flag set; a signalled
waiter re-evaluates the same predicate under the lock and only returns
(clearing the flag) once the counter is zero. -/
theorem waitForTasks_spec (s : Pond) :
    (∀ s₂ : Pond, waitPred s₂ = true ↔ s₂.total_tasks = 0) ∧
    (s.total_tasks = 0 → waitForTasks s = .returned { s with waiting := false }) ∧
    (s.total_tasks ≠ 0 → waitForTasks s = .blocked { s with waiting := true }) ∧
    (∀ s₂ : Pond, s₂.total_tasks = 0 → waitResume s₂ = some { s₂ with waiting := false }) ∧
    (∀ s₂ : Pond, s₂.total_tasks ≠ 0 → waitResume s₂ = none) := by
  refine ⟨?_, ?_, ?_, ?_, ?_⟩
  · intro s₂
    simp [waitPred]
  · intro h0
    simp [waitForTasks, waitPred, h0]
  · intro h0
    simp [waitForTasks, waitPred, h0]
  · intro s₂ h0
    simp [waitResume, waitPred, h0]
  · intro s₂ h0
    simp [waitResume, waitPred, h0]

theorem waitForTasks_spec_witness :
    (waitPred (mkPond 3) = true ↔ (mkPond 3).total_tasks = 0) ∧
    waitForTasks (mkPond 3) = .returned { mkPond 3 with waiting := false } ∧
    waitForTasks { mkPond 3 with total_tasks := 5 } = .blocked { mkPond 3 with total_tasks := 5, waiting := true } ∧
    waitResume { mkPond 3 with total_tasks := 5 } = none := by
  refine ⟨(waitForTasks_spec (mkPond 3)).1 (mkPond 3), ?_, ?_, ?_⟩
  · exact (waitForTasks_spec (mkPond 3)).2.1 (by decide)
  · exact (waitForTasks_spec { mkPond 3 with total_tasks := 5 }).2.2.1 (by decide)
  · exact (waitForTasks_spec { mkPond 3 with total_tasks := 5 }).2.2.2.2
      { mkPond 3 with total_tasks := 5 } (by decide)

/-- C9: for every `target ≥ 0` (and a well-formed recycle queue — every
recorded index is a distinct exited slot, which holds in every reachable
state), `adjustThreads(target)` succeeds and leaves the desired thread
count exactly `target`; it delegates to `addThreads (target − current)`
when `target` exceeds the current desired count, to
`delThreads (current − target)` when it is below, and does nothing when
they are equal. -/
theorem adjustThreads_spec (target : Int) (s : Pond) (htar : 0 ≤ target)
    (hrec : ∀ i ∈ s.deleted_threads, s.pond[i]? = some .exited)
    (hnd : s.deleted_threads.Nodup) :
    (adjustThreads target s).map getThreadNumb = some target ∧
    (s.thread_numb < target →
      adjustThreads target s = addThreads (target - s.thread_numb) s) ∧
    (target < s.thread_numb →
      adjustThreads target s = (delThreads (s.thread_numb - target) s).map Prod.fst) ∧
    (target = s.thread_numb → adjustThreads target s = some s) := by
  by_cases hlt : s.thread_numb < target
  · have hknn : (0 : Int) ≤ target - s.thread_numb := by omega
    obtain ⟨s₁, hloop, hn, hrec1⟩ :=
      recOk_addLoop (target - s.thread_numb).toNat (⟨hrec, hnd⟩ : RecycledOk s)
    have hadd : addThreads (target - s.thread_numb) s = some s₁ := by
      unfold addThreads
      rw [if_pos hknn]
      exact hloop
    have hadj : adjustThreads target s = some s₁ := by
      unfold adjustThreads
      rw [if_pos htar, if_pos hlt]
      exact hadd
    refine ⟨?_, fun hx => by rw [hadj, hadd], fun hgt => by omega, fun heq => by omega⟩
    rw [hadj]
    have hcast := Int.toNat_of_nonneg hknn
    rw [hcast] at hn
    unfold getThreadNumb
    simp only [Option.map, Option.some.injEq]
    omega
  · by_cases hgt : target < s.thread_numb
    · have hdel : delThreads (s.thread_numb - target) s =
        some ({ s with shrink_numb := s.shrink_numb + (s.thread_numb - target), thread_numb := s.thread_numb - (s.thread_numb - target) }, Wake.all) := by
        unfold delThreads
        rw [if_pos ⟨by omega, by omega⟩]
      have hadj : adjustThreads target s =
          some { s with shrink_numb := s.shrink_numb + (s.thread_numb - target), thread_numb := s.thread_numb - (s.thread_numb - target) } := by
        unfold adjustThreads
        rw [if_pos htar, if_neg (by omega), if_pos hgt, hdel]
        rfl
      refine ⟨?_, fun hx => by omega, fun hx => by rw [hadj, hdel]; rfl, fun heq => by omega⟩
      rw [hadj]
      unfold getThreadNumb
      simp only [Option.map, Option.some.injEq]
      omega
    · have hadj : adjustThreads target s = some s := by
        unfold adjustThreads
        rw [if_pos htar, if_neg (by omega), if_neg (by omega)]
      refine ⟨?_, fun hx => by omega, fun hx => by omega, fun heq => hadj⟩
      rw [hadj]
      unfold getThreadNumb
      simp only [Option.map, Option.some.injEq]
      omega

theorem adjustThreads_spec_witness :
    (adjustThreads 3 (mkPond 1)).map getThreadNumb = some 3 ∧
    adjustThreads 1 (mkPond 1) = some (mkPond 1) := by
  constructor
  · exact (adjustThreads_spec 3 (mkPond 1) (by decide) (by decide) (by decide)).1
  · exact (adjustThreads_spec 1 (mkPond 1) (by decide) (by decide) (by decide)).2.2.2 (by decide)

/-- C10: when a worker finishes a task that raises and has no result
channel, `util::invoke` does not return normally, so the `--total_tasks`
after it is never reached (in C++ the uncaught exception kills the thread):
the finish step only marks the slot crashed and leaves `total_tasks`
unchanged, and from that state no sequence of steps can ever bring
`total_tasks` back to 0 — the drain predicate of `waitForTasks` stays false
forever. A task with a result channel (`submitForReturn`'s packaged_task)
captures the raise into the future, `util::invoke` returns normally, and
the worker does decrement the counter. -/
theorem failed_task_leaks_total_tasks (s : Pond) (i : Nat) (t : HipeTask)
    (hre : Reachable s) (hb : s.pond[i]? = some (.busy t)) :
    (t.raises = true → t.hasChannel = false →
      stepE (.workerFinish i) s = some { s with pond := s.pond.set i .crashed } ∧
      ({ s with pond := s.pond.set i .crashed } : Pond).total_tasks = s.total_tasks ∧
      (∀ s₂ : Pond, Steps { s with pond := s.pond.set i .crashed } s₂ →
        s₂.total_tasks ≠ 0)) ∧
    (t.hasChannel = true →
      stepE (.workerFinish i) s =
        some { s with total_tasks := s.total_tasks - 1, pond := s.pond.set i .running }) := by
  constructor
  · intro hr hc
    have hinvoke : invokeCompletes t = false := by
      unfold invokeCompletes
      rw [hr, hc]
      rfl
    have hstep : stepE (.workerFinish i) s = some { s with pond := s.pond.set i .crashed } := by
      simp [stepE, hb, hinvoke]
    refine ⟨hstep, rfl, ?_⟩
    intro s₂ hsteps h0
    have hre2 : Reachable { s with pond := s.pond.set i .crashed } :=
      Reachable.step _ s _ hre hstep
    obtain ⟨_, _, h3, _, _, _⟩ := inv_reachable (steps_reachable hsteps hre2)
    have hcr1 : 1 ≤ crashedCount ({ s with pond := s.pond.set i .crashed } : Pond).pond := by
      dsimp only [crashedCount]
      rw [countP_set_incr crashedP .crashed hb rfl rfl]
      omega
    have hcr2 := le_trans hcr1 (crashed_steps hsteps)
    omega
  · intro hc
    have hinvoke : invokeCompletes t = true := by
      unfold invokeCompletes
      rw [hc]
      simp
    simp [stepE, hb, hinvoke]

theorem failed_task_leaks_total_tasks_witness :
    (stepE (.workerFinish 0) { mkPond 1 with total_tasks := 1, pond := [.busy ⟨true, false⟩], task_loaded := 1 } = some { mkPond 1 with total_tasks := 1, pond := [.crashed], task_loaded := 1 } ∧
     ({ mkPond 1 with total_tasks := 1, pond := [.crashed], task_loaded := 1 } : Pond).total_tasks = 1 ∧
     ({ mkPond 1 with total_tasks := 1, pond := [.crashed], task_loaded := 1 } : Pond).total_tasks ≠ 0) ∧
    stepE (.workerFinish 0) { mkPond 1 with total_tasks := 1, pond := [.busy ⟨true, true⟩], task_loaded := 1 } = some { mkPond 1 with total_tasks := 0, pond := [.running], task_loaded := 1 } := by
  have hreA : Reachable { mkPond 1 with total_tasks := 1, pond := [.busy ⟨true, false⟩], task_loaded := 1 } := by
    refine Reachable.step (.workerTake 0) { mkPond 1 with shared_tq := [⟨true, false⟩], total_tasks := 1 } _ ?_ (by decide)
    exact Reachable.step (.submit true) (mkPond 1) _ (Reachable.init 1) (by decide)
  have hreB : Reachable { mkPond 1 with total_tasks := 1, pond := [.busy ⟨true, true⟩], task_loaded := 1 } := by
    refine Reachable.step (.workerTake 0) { mkPond 1 with shared_tq := [⟨true, true⟩], total_tasks := 1 } _ ?_ (by decide)
    exact Reachable.step (.submitForReturn true) (mkPond 1) _ (Reachable.init 1) (by decide)
  have hA := (failed_task_leaks_total_tasks
    { mkPond 1 with total_tasks := 1, pond := [.busy ⟨true, false⟩], task_loaded := 1 } 0
    ⟨true, false⟩ hreA (by decide)).1 rfl rfl
  have hB := (failed_task_leaks_total_tasks
    { mkPond 1 with total_tasks := 1, pond := [.busy ⟨true, true⟩], task_loaded := 1 } 0
    ⟨true, true⟩ hreB (by decide)).2 rfl
  exact ⟨⟨hA.1, hA.2.1, hA.2.2 _ (Steps.refl _)⟩, hB⟩

end hipe
